import Mathlib

/-!
# The nanomsg worker (src/utils/worker.c)

A shallow embedding of the worker object: the mutex-protected event queue,
the wake-up descriptor ("efd"), the poller registrations and the worker thread
running `nn_worker_routine`.

The worker thread is a small-step machine.  Its control point is kept in the
`thread` field, and one step is one call into the poller, or one pass of the
innermost `while (1)` loop that drains the queue.  What the poller answers is
not decided by worker.c, so each step that calls the poller carries the answer.
Other threads take part through `nn_worker_post` and `nn_worker_term`, each of
which runs under the mutex and is therefore one step.

Callbacks (`owner->vfptr->event (...)`) are code of the owners; the model
records each call, together with the state of the mutex at that moment, in
the `log` field and assumes that the call returns.
-/

namespace Worker

/-! ## Things worker.c takes from headers that are not part of it -/

/-- Values of the macros used by worker.c whose definitions live in other
headers (errno.h, poller.h, async.h).  They are kept as parameters. -/
structure Macros where
  EAGAIN : Int
  NN_POLLER_IN : Int
  NN_ASYNC_OK : Int
deriving DecidableEq, Repr

/-- Threads that may touch a worker: the worker thread itself (the one running
`nn_worker_routine`) and any other thread of the application. -/
inductive Thread
  | worker
  | user
deriving DecidableEq, Repr

/-- Modelled from the spec: the queue lock (mutex.h, `struct nn_mutex`).  It
is either free (`none`) or held by one thread. -/
abbrev nn_mutex := Option Thread

/-- Modelled from the spec: `nn_mutex_init`, a fresh mutex is free. -/
def nn_mutex_init : nn_mutex := none

/-- Modelled from the spec: `nn_mutex_lock`.  Taking a free mutex succeeds;
on a held mutex the caller cannot proceed (`none`), also when the caller is
the holder (the self-deadlock of the spec, section 4.2). -/
def nn_mutex_lock (m : nn_mutex) (who : Thread) : Option nn_mutex :=
  match m with
  | none => some (some who)
  | some _ => none

/-- Modelled from the spec: `nn_mutex_unlock`. -/
def nn_mutex_unlock (_m : nn_mutex) : nn_mutex := none

/-- Record `struct nn_worker_task` as worker.c uses it: the member `owner`
and, standing for the embedded queue item, the identity (address) of the
task. -/
structure nn_worker_task where
  addr : Nat
  owner : Nat
deriving DecidableEq, Repr

/-- Record `struct nn_worker_fd` as worker.c uses it: the member `owner` and,
standing for the embedded poller handle `phndl`, the identity (address) of the
registration. -/
structure nn_worker_fd where
  addr : Nat
  owner : Nat
deriving DecidableEq, Repr

/-- Record `struct nn_worker_timer` of aio/worker.h: identity and callback. -/
structure nn_worker_timer where
  addr : Nat
  callback : Nat
deriving DecidableEq, Repr

/-- Addresses of queue items: `&self->stop`, or `&task->item` for a task.
`nn_cont (item, struct nn_worker_task, item)` is the projection from the
second form. -/
inductive nn_queue_item
  | stop
  | task (t : nn_worker_task)
deriving DecidableEq, Repr

/-- Modelled from the spec: the intrusive FIFO queue (queue.h), as the list of
its items from head to tail. -/
abbrev nn_queue := List nn_queue_item

/-- Modelled from the spec: `nn_queue_init`, the empty queue. -/
def nn_queue_init : nn_queue := []

/-- Modelled from the spec: `nn_queue_push` links the item at the tail. -/
def nn_queue_push (q : nn_queue) (item : nn_queue_item) : nn_queue :=
  q ++ [item]

/-- Modelled from the spec: `nn_queue_pop` unlinks and returns the head, or
returns NULL (`none`) on an empty queue. -/
def nn_queue_pop (q : nn_queue) : Option nn_queue_item × nn_queue :=
  match q with
  | [] => (none, [])
  | item :: rest => (some item, rest)

/-- Modelled from the spec: the wake signal (efd.h), a flag. -/
abbrev nn_efd := Bool

/-- Modelled from the spec: `nn_efd_init`, not signalled. -/
def nn_efd_init : nn_efd := false

/-- Modelled from the spec: `nn_efd_signal` (pulse, idempotent). -/
def nn_efd_signal (_e : nn_efd) : nn_efd := true

/-- Modelled from the spec: `nn_efd_unsignal` (clear). -/
def nn_efd_unsignal (_e : nn_efd) : nn_efd := false

/-- Addresses of poller handles: `&self->efd_hndl`, or `&fd->phndl` for a
registration.  `nn_cont (phndl, struct nn_worker_fd, phndl)` is the projection
from the second form. -/
inductive nn_poller_hndl
  | efd_hndl
  | phndl (fd : nn_worker_fd)
deriving DecidableEq, Repr

/-- Modelled from the spec: one registration held by the multiplexer
(poller.h), that is the handle, the descriptor and the two interest flags. -/
structure nn_poller_reg where
  hndl : nn_poller_hndl
  s : Int
  pollin : Bool
  pollout : Bool
deriving DecidableEq, Repr

/-- Modelled from the spec: the multiplexer (poller.h), as the list of its
registrations. -/
abbrev nn_poller := List nn_poller_reg

/-- Modelled from the spec: `nn_poller_init`. -/
def nn_poller_init : nn_poller := []

/-- Modelled from the spec: `nn_poller_add` registers a descriptor with no
initial interest. -/
def nn_poller_add (p : nn_poller) (s : Int) (h : nn_poller_hndl) : nn_poller :=
  p ++ [{ hndl := h, s := s, pollin := false, pollout := false }]

/-- Modelled from the spec: `nn_poller_rm` unregisters a handle. -/
def nn_poller_rm (p : nn_poller) (h : nn_poller_hndl) : nn_poller :=
  p.filter (fun r => decide (r.hndl ≠ h))

/-- Modelled from the spec: `nn_poller_set_in`. -/
def nn_poller_set_in (p : nn_poller) (h : nn_poller_hndl) : nn_poller :=
  p.map (fun r => if r.hndl = h then { r with pollin := true } else r)

/-- Modelled from the spec: `nn_poller_reset_in`. -/
def nn_poller_reset_in (p : nn_poller) (h : nn_poller_hndl) : nn_poller :=
  p.map (fun r => if r.hndl = h then { r with pollin := false } else r)

/-- Modelled from the spec: `nn_poller_set_out`. -/
def nn_poller_set_out (p : nn_poller) (h : nn_poller_hndl) : nn_poller :=
  p.map (fun r => if r.hndl = h then { r with pollout := true } else r)

/-- Modelled from the spec: `nn_poller_reset_out`. -/
def nn_poller_reset_out (p : nn_poller) (h : nn_poller_hndl) : nn_poller :=
  p.map (fun r => if r.hndl = h then { r with pollout := false } else r)

/-- Modelled from the spec: the timer set (timerset.h), the pending
(deadline, timer) pairs in increasing order of deadline. -/
abbrev nn_timerset := List (Int × nn_worker_timer)

/-- Modelled from the spec: insertion into the timer set, ordered by deadline,
ties broken by insertion order. -/
def nn_timerset_add (ts : nn_timerset) (deadline : Int) (t : nn_worker_timer) :
    nn_timerset :=
  match ts with
  | [] => [(deadline, t)]
  | (d, u) :: rest =>
    if deadline < d then (deadline, t) :: (d, u) :: rest
    else (d, u) :: nn_timerset_add rest deadline t

/-- Modelled from the spec: cancelling a timer. -/
def nn_timerset_rm (ts : nn_timerset) (t : nn_worker_timer) : nn_timerset :=
  ts.filter (fun e => decide (e.2 ≠ t))

/-- Modelled from the spec: `peek_earliest_deadline`, the earliest pending
deadline of the timer set, if a timer is pending. -/
def nn_timerset_earliest (ts : nn_timerset) : Option Int :=
  match ts with
  | [] => none
  | (d, _) :: _ => some d

/-- Modelled from the spec: the timeout that section 4.5, step 1 asks for at
time `now`, that is -1 ("no deadline", block indefinitely) when no timer is
pending and otherwise the time remaining until the earliest pending deadline
(none remains once the deadline has passed). -/
def spec_wait_timeout (ts : nn_timerset) (now : Int) : Int :=
  match nn_timerset_earliest ts with
  | none => -1
  | some d => if d ≤ now then 0 else d - now

/-! ## The worker object -/

/-- Where the thread running `nn_worker_routine` stands. -/
inductive Pc
  | wait
  | event
  | drain
  | returned
  | aborted
deriving DecidableEq, Repr

/-- What a callback is told is the source of the event. -/
inductive Source
  | task (t : nn_worker_task)
  | fd (f : nn_worker_fd)
deriving DecidableEq, Repr

/-- What the worker thread did, in order.  A callback and a call of
`nn_poller_wait` are recorded with the state of the mutex at that moment. -/
inductive Event
  | lock
  | unlock
  | wait (timeout : Int) (sync : nn_mutex)
  | callback (owner : Nat) (source : Source) (type : Int) (sync : nn_mutex)
deriving DecidableEq, Repr

/-- Record `struct nn_worker` as worker.c uses it (members `sync`, `events`,
`efd`, `poller`).  The members `stop` and `efd_hndl` are only used through
their addresses (`nn_queue_item.stop`, `nn_poller_hndl.efd_hndl`).  `timerset`
is the member declared in aio/worker.h, which worker.c never touches; `thread`
is the control point of the worker thread and `log` the record of what it
did. -/
structure nn_worker where
  sync : nn_mutex
  events : nn_queue
  efd : nn_efd
  poller : nn_poller
  timerset : nn_timerset
  thread : Pc
  log : List Event
deriving DecidableEq, Repr

/-- Function `nn_worker_fd_init` (worker.c 28-31). -/
def nn_worker_fd_init (self : nn_worker_fd) (owner : Nat) : nn_worker_fd :=
  { self with owner := owner }

/-- Function `nn_worker_task_init` (worker.c 37-41). -/
def nn_worker_task_init (self : nn_worker_task) (owner : Nat) : nn_worker_task :=
  { self with owner := owner }

/-- Function `nn_worker_init` (worker.c 51-61).  The argument is the
descriptor of the freshly created efd.  Starting the thread puts it at the
top of `nn_worker_routine`. -/
def nn_worker_init (efd_fd : Int) : nn_worker :=
  let poller := nn_poller_add nn_poller_init efd_fd .efd_hndl
  let poller := nn_poller_set_in poller .efd_hndl
  { sync := nn_mutex_init
    events := nn_queue_init
    efd := nn_efd_init
    poller := poller
    timerset := []
    thread := .wait
    log := [] }

/-- Function `nn_worker_term`, the part that asks the worker thread to
terminate (worker.c 65-69).  The join and the clean-up that follow it
(worker.c 71-79) run after the routine has returned and are not modelled. -/
def nn_worker_term (self : nn_worker) (who : Thread) : Option nn_worker :=
  match nn_mutex_lock self.sync who with
  | none => none
  | some m =>
    let self := { self with sync := m }
    let self := { self with events := nn_queue_push self.events .stop }
    let self := { self with efd := nn_efd_signal self.efd }
    some { self with sync := nn_mutex_unlock self.sync }

/-- Function `nn_worker_post` (worker.c 82-88), called by thread `who`. -/
def nn_worker_post (self : nn_worker) (who : Thread) (task : nn_worker_task) :
    Option nn_worker :=
  match nn_mutex_lock self.sync who with
  | none => none
  | some m =>
    let self := { self with sync := m }
    let self := { self with events := nn_queue_push self.events (.task task) }
    let self := { self with efd := nn_efd_signal self.efd }
    some { self with sync := nn_mutex_unlock self.sync }

/-- Function `nn_worker_add` (worker.c 90-93). -/
def nn_worker_add (self : nn_worker) (s : Int) (fd : nn_worker_fd) : nn_worker :=
  { self with poller := nn_poller_add self.poller s (.phndl fd) }

/-- Function `nn_worker_rm` (worker.c 95-98). -/
def nn_worker_rm (self : nn_worker) (fd : nn_worker_fd) : nn_worker :=
  { self with poller := nn_poller_rm self.poller (.phndl fd) }

/-- Function `nn_worker_set_in` (worker.c 100-103). -/
def nn_worker_set_in (self : nn_worker) (fd : nn_worker_fd) : nn_worker :=
  { self with poller := nn_poller_set_in self.poller (.phndl fd) }

/-- Function `nn_worker_reset_in` (worker.c 105-108). -/
def nn_worker_reset_in (self : nn_worker) (fd : nn_worker_fd) : nn_worker :=
  { self with poller := nn_poller_reset_in self.poller (.phndl fd) }

/-- Function `nn_worker_set_out` (worker.c 110-113). -/
def nn_worker_set_out (self : nn_worker) (fd : nn_worker_fd) : nn_worker :=
  { self with poller := nn_poller_set_out self.poller (.phndl fd) }

/-- Function `nn_worker_reset_out` (worker.c 115-118). -/
def nn_worker_reset_out (self : nn_worker) (fd : nn_worker_fd) : nn_worker :=
  { self with poller := nn_poller_reset_out self.poller (.phndl fd) }

/-- Modelled from the spec: `nn_worker_poller_add_timer`, declared in
aio/worker.h (95-96) and implemented nowhere under src.  It inserts the pair
(now + timeout, timer) into the timer set. -/
def nn_worker_poller_add_timer (self : nn_worker) (now timeout : Int)
    (timer : nn_worker_timer) : nn_worker :=
  { self with timerset := nn_timerset_add self.timerset (now + timeout) timer }

/-- Modelled from the spec: `nn_worker_poller_rm_timer`, declared in
aio/worker.h (97-98) and implemented nowhere under src. -/
def nn_worker_poller_rm_timer (self : nn_worker) (timer : nn_worker_timer) :
    nn_worker :=
  { self with timerset := nn_timerset_rm self.timerset timer }

/-! ## The worker routine, step by step -/

/-- The top of the outer loop of `nn_worker_routine` (worker.c 136-138):
`rc = nn_poller_wait (&self->poller, -1); errnum_assert (rc == 0, -rc);`
where `rc` is what the poller answers. -/
def nn_worker_routine_wait (self : nn_worker) (rc : Int) : nn_worker :=
  let self := { self with log := self.log ++ [Event.wait (-1) self.sync] }
  if rc = 0 then { self with thread := .event }
  else { self with thread := .aborted }

/-- One pass of the middle loop of `nn_worker_routine` (worker.c 143-152 and
176-178), up to the point where the draining loop is entered.  `rc`, `pevent`
and `phndl` are what `nn_poller_event` answers. -/
def nn_worker_routine_event (K : Macros) (self : nn_worker) (rc pevent : Int)
    (phndl : nn_poller_hndl) : Option nn_worker :=
  if rc = -K.EAGAIN then some { self with thread := .wait }
  else
    match phndl with
    | .efd_hndl =>
      match nn_mutex_lock self.sync .worker with
      | none => none
      | some m =>
        let self := { self with sync := m, log := self.log ++ [Event.lock] }
        if pevent = K.NN_POLLER_IN then
          some { self with efd := nn_efd_unsignal self.efd, thread := .drain }
        else some { self with thread := .aborted }
    | .phndl fd =>
      some { self with
        log := self.log ++ [Event.callback fd.owner (.fd fd) pevent self.sync] }

/-- One pass of the innermost loop of `nn_worker_routine` (worker.c 153-173):
pop an item; on an empty queue unlock and go on with the poller events, on the
stop item unlock and return, otherwise call the owner of the task. -/
def nn_worker_routine_drain (K : Macros) (self : nn_worker) : nn_worker :=
  match nn_queue_pop self.events with
  | (none, q) =>
    { self with
      events := q
      sync := nn_mutex_unlock self.sync
      log := self.log ++ [Event.unlock]
      thread := .event }
  | (some .stop, q) =>
    { self with
      events := q
      sync := nn_mutex_unlock self.sync
      log := self.log ++ [Event.unlock]
      thread := .returned }
  | (some (.task task), q) =>
    { self with
      events := q
      log := self.log ++
        [Event.callback task.owner (.task task) K.NN_ASYNC_OK self.sync] }

/-- Calls that only change the registrations of the poller or the timer set.
They are made on the worker thread, from inside callbacks. -/
inductive Registration
  | add (s : Int) (fd : nn_worker_fd)
  | rm (fd : nn_worker_fd)
  | set_in (fd : nn_worker_fd)
  | reset_in (fd : nn_worker_fd)
  | set_out (fd : nn_worker_fd)
  | reset_out (fd : nn_worker_fd)
  | add_timer (now timeout : Int) (timer : nn_worker_timer)
  | rm_timer (timer : nn_worker_timer)
deriving DecidableEq, Repr

/-- The effect of a registration call. -/
def Registration.apply (self : nn_worker) : Registration → nn_worker
  | .add s fd => nn_worker_add self s fd
  | .rm fd => nn_worker_rm self fd
  | .set_in fd => nn_worker_set_in self fd
  | .reset_in fd => nn_worker_reset_in self fd
  | .set_out fd => nn_worker_set_out self fd
  | .reset_out fd => nn_worker_reset_out self fd
  | .add_timer now timeout timer => nn_worker_poller_add_timer self now timeout timer
  | .rm_timer timer => nn_worker_poller_rm_timer self timer

/-- The steps of the system: calls made by some thread (`post`, `term`,
`reg`), and the steps of the worker thread, labelled with what the poller
answers. -/
inductive Action
  | post (who : Thread) (task : nn_worker_task)
  | term (who : Thread)
  | reg (r : Registration)
  | wait (rc : Int)
  | event (rc pevent : Int) (phndl : nn_poller_hndl)
  | drain
deriving DecidableEq, Repr

/-- One step.  `none` means that the step cannot be taken in this state: the
caller is blocked on the mutex, or the worker thread is somewhere else. -/
def step (K : Macros) (self : nn_worker) : Action → Option nn_worker
  | .post who task => nn_worker_post self who task
  | .term who => nn_worker_term self who
  | .reg r => some (r.apply self)
  | .wait rc =>
    if self.thread = .wait then some (nn_worker_routine_wait self rc) else none
  | .event rc pevent phndl =>
    if self.thread = .event then nn_worker_routine_event K self rc pevent phndl
    else none
  | .drain =>
    if self.thread = .drain then some (nn_worker_routine_drain K self) else none

/-- A run: the steps of a schedule, one after the other. -/
def run (K : Macros) (self : nn_worker) : List Action → Option nn_worker
  | [] => some self
  | a :: rest =>
    match step K self a with
    | none => none
    | some next => run K next rest

/-! ## Reading schedules and logs -/

/-- The task a step posts, if it is a post. -/
def Action.posts : Action → Option nn_worker_task
  | .post _ task => some task
  | _ => none

/-- The item a step pushes to the queue, if it pushes one. -/
def Action.pushes : Action → Option nn_queue_item
  | .post _ task => some (.task task)
  | .term _ => some .stop
  | _ => none

/-- The tasks a schedule posts, in order. -/
def posted (sched : List Action) : List nn_worker_task :=
  sched.filterMap Action.posts

/-- The items a schedule pushes to the queue, in order. -/
def pushed (sched : List Action) : List nn_queue_item :=
  sched.filterMap Action.pushes

/-- The tasks a schedule posts before its first `term`. -/
def postedBeforeTerm : List Action → List nn_worker_task
  | [] => []
  | .post _ task :: rest => task :: postedBeforeTerm rest
  | .term _ :: _ => []
  | _ :: rest => postedBeforeTerm rest

/-- Tells whether a log entry is a callback. -/
def Event.isCallback : Event → Bool
  | .callback _ _ _ _ => true
  | _ => false

/-- Tells whether a log entry is a callback whose source is a task. -/
def Event.isTaskCallback : Event → Bool
  | .callback _ (.task _) _ _ => true
  | _ => false

/-- The task of a log entry, if the entry is a callback whose source is a
task. -/
def Event.dispatches : Event → Option nn_worker_task
  | .callback _ (.task t) _ _ => some t
  | _ => none

/-- The timeout of a log entry, if the entry is a call of `nn_poller_wait`. -/
def Event.waits : Event → Option Int
  | .wait timeout _ => some timeout
  | _ => none

/-- The callbacks of a log. -/
def callbacks (log : List Event) : List Event := log.filter Event.isCallback

/-- The task callbacks of a log. -/
def taskCallbacks (log : List Event) : List Event :=
  log.filter Event.isTaskCallback

/-- The callback the routine makes for a task: on the owner of the task, with
the task as the source, NN_ASYNC_OK as the type, the worker holding the
mutex. -/
def taskCallback (K : Macros) (t : nn_worker_task) : Event :=
  .callback t.owner (.task t) K.NN_ASYNC_OK (some .worker)

/-- The tasks for which a log holds a callback, in the order of the log. -/
def dispatched (log : List Event) : List nn_worker_task :=
  log.filterMap Event.dispatches

/-- The timeouts the routine passed to `nn_poller_wait`, in order. -/
def timeouts (log : List Event) : List Int :=
  log.filterMap Event.waits

/-- The number of times the routine took the mutex. -/
def locks (log : List Event) : Nat :=
  (log.filter fun e => decide (e = .lock)).length

/-- The number of times the routine released the mutex. -/
def unlocks (log : List Event) : Nat :=
  (log.filter fun e => decide (e = .unlock)).length

/-- The locking discipline of one log entry: task callbacks are made with the
worker holding the mutex, callbacks for registrations and calls of
`nn_poller_wait` with the mutex free. -/
def Event.disciplined : Event → Bool
  | .callback _ (.task _) _ sync => decide (sync = some .worker)
  | .callback _ (.fd _) _ sync => decide (sync = none)
  | .wait _ sync => decide (sync = none)
  | _ => true

/-- One ready event of the poller for a registration: the result of
`nn_poller_event`, the event kind and the registration whose handle is
reported. -/
structure IoEvent where
  rc : Int
  pevent : Int
  fd : nn_worker_fd
deriving DecidableEq, Repr

/-- The step in which the poller yields the event. -/
def IoEvent.action (e : IoEvent) : Action := .event e.rc e.pevent (.phndl e.fd)

/-- The callback the routine makes for a ready event of a registration. -/
def IoEvent.callback (sync : nn_mutex) (e : IoEvent) : Event :=
  .callback e.fd.owner (.fd e.fd) e.pevent sync

/-- The steps of `step`, case by case, as a relation (see `step_sound`). -/
inductive Step (K : Macros) : nn_worker → Action → nn_worker → Prop
  | post (s : nn_worker) (who : Thread) (t : nn_worker_task) :
    s.sync = none →
    Step K s (.post who t)
      { s with sync := none, events := s.events ++ [.task t], efd := true }
  | term (s : nn_worker) (who : Thread) :
    s.sync = none →
    Step K s (.term who)
      { s with sync := none, events := s.events ++ [.stop], efd := true }
  | reg (s : nn_worker) (r : Registration) :
    Step K s (.reg r) (r.apply s)
  | wait_ok (s : nn_worker) :
    s.thread = .wait →
    Step K s (.wait 0)
      { s with thread := .event, log := s.log ++ [Event.wait (-1) s.sync] }
  | wait_failed (s : nn_worker) (rc : Int) :
    s.thread = .wait → rc ≠ 0 →
    Step K s (.wait rc)
      { s with thread := .aborted, log := s.log ++ [Event.wait (-1) s.sync] }
  | no_event (s : nn_worker) (pevent : Int) (phndl : nn_poller_hndl) :
    s.thread = .event →
    Step K s (.event (-K.EAGAIN) pevent phndl) { s with thread := .wait }
  | wake (s : nn_worker) (rc : Int) :
    s.thread = .event → rc ≠ -K.EAGAIN → s.sync = none →
    Step K s (.event rc K.NN_POLLER_IN .efd_hndl)
      { s with
        sync := some .worker
        efd := false
        thread := .drain
        log := s.log ++ [Event.lock] }
  | wake_failed (s : nn_worker) (rc pevent : Int) :
    s.thread = .event → rc ≠ -K.EAGAIN → s.sync = none →
    pevent ≠ K.NN_POLLER_IN →
    Step K s (.event rc pevent .efd_hndl)
      { s with
        sync := some .worker
        thread := .aborted
        log := s.log ++ [Event.lock] }
  | io (s : nn_worker) (rc pevent : Int) (fd : nn_worker_fd) :
    s.thread = .event → rc ≠ -K.EAGAIN →
    Step K s (.event rc pevent (.phndl fd))
      { s with log := s.log ++ [Event.callback fd.owner (.fd fd) pevent s.sync] }
  | drain_empty (s : nn_worker) :
    s.thread = .drain → s.events = [] →
    Step K s .drain
      { s with sync := none, thread := .event, log := s.log ++ [Event.unlock] }
  | drain_stop (s : nn_worker) (rest : List nn_queue_item) :
    s.thread = .drain → s.events = .stop :: rest →
    Step K s .drain
      { s with
        events := rest
        sync := none
        thread := .returned
        log := s.log ++ [Event.unlock] }
  | drain_task (s : nn_worker) (t : nn_worker_task) (rest : List nn_queue_item) :
    s.thread = .drain → s.events = .task t :: rest →
    Step K s .drain
      { s with
        events := rest
        log := s.log ++ [Event.callback t.owner (.task t) K.NN_ASYNC_OK s.sync] }

/-- What holds of every state the worker can reach (see `inv_run`). -/
structure Inv (K : Macros) (s : nn_worker) : Prop where
  drain_held : s.thread = .drain → s.sync = some .worker
  idle_free :
    s.thread = .wait ∨ s.thread = .event ∨ s.thread = .returned → s.sync = none
  disciplined : ∀ e ∈ s.log, e.disciplined = true
  balance :
    locks s.log = unlocks s.log + (if s.sync = some .worker then 1 else 0)
  wellformed : taskCallbacks s.log = (dispatched s.log).map (taskCallback K)
  wake : s.sync = none → s.thread ≠ .returned → s.events ≠ [] → s.efd = true
  blocking : ∀ t ∈ timeouts s.log, t = -1

/-- The items the queue has held so far and that are accounted for by the
state: those of the tasks dispatched, the stop item if the routine has
returned, and the items still queued. -/
def account (s : nn_worker) : List nn_queue_item :=
  (dispatched s.log).map .task ++
    (if s.thread = .returned then [.stop] else []) ++ s.events

/-! ## Basic facts about runs -/

theorem run_append (K : Macros) (s : nn_worker) (xs ys : List Action) :
    run K s (xs ++ ys) =
      match run K s xs with
      | none => none
      | some mid => run K mid ys := by
  induction xs generalizing s with
  | nil => rfl
  | cons a rest ih =>
    simp only [List.cons_append, run]
    cases step K s a with
    | none => rfl
    | some next => exact ih next

theorem step_post_some (K : Macros) (s s' : nn_worker) (who : Thread)
    (t : nn_worker_task) (h : step K s (.post who t) = some s') :
    s.sync = none ∧
      s' = { s with sync := none, events := s.events ++ [.task t], efd := true } := by
  obtain ⟨sync, events, efd, poller, timerset, thread, log⟩ := s
  cases sync with
  | none =>
    simp [step, nn_worker_post, nn_mutex_lock, nn_mutex_unlock, nn_queue_push,
      nn_efd_signal] at h
    simp [← h]
  | some x => simp [step, nn_worker_post, nn_mutex_lock] at h

theorem step_term_some (K : Macros) (s s' : nn_worker) (who : Thread)
    (h : step K s (.term who) = some s') :
    s.sync = none ∧
      s' = { s with sync := none, events := s.events ++ [.stop], efd := true } := by
  obtain ⟨sync, events, efd, poller, timerset, thread, log⟩ := s
  cases sync with
  | none =>
    simp [step, nn_worker_term, nn_mutex_lock, nn_mutex_unlock, nn_queue_push,
      nn_efd_signal] at h
    simp [← h]
  | some x => simp [step, nn_worker_term, nn_mutex_lock] at h

theorem reg_apply_fields (s : nn_worker) (r : Registration) :
    (r.apply s).sync = s.sync ∧ (r.apply s).events = s.events ∧
      (r.apply s).efd = s.efd ∧ (r.apply s).thread = s.thread ∧
      (r.apply s).log = s.log := by
  cases r <;>
    simp [Registration.apply, nn_worker_add, nn_worker_rm, nn_worker_set_in,
      nn_worker_reset_in, nn_worker_set_out, nn_worker_reset_out,
      nn_worker_poller_add_timer, nn_worker_poller_rm_timer]

/-- Once the routine has returned, with the mutex free, nothing a later
schedule does adds to the log, and the queue only grows at the tail. -/
theorem run_returned (K : Macros) (sched : List Action) (s s' : nn_worker)
    (hpc : s.thread = .returned) (hsync : s.sync = none)
    (h : run K s sched = some s') :
    s'.thread = .returned ∧ s'.sync = none ∧ s'.log = s.log ∧
      ∃ more, s'.events = s.events ++ more := by
  induction sched generalizing s with
  | nil =>
    simp only [run, Option.some.injEq] at h
    subst h
    exact ⟨hpc, hsync, rfl, [], by simp⟩
  | cons a rest ih =>
    simp only [run] at h
    cases hstep : step K s a with
    | none => simp [hstep] at h
    | some next =>
      rw [hstep] at h
      have key : next.thread = .returned ∧ next.sync = none ∧ next.log = s.log ∧
          ∃ more, next.events = s.events ++ more := by
        cases a with
        | post who t =>
          obtain ⟨_, rfl⟩ := step_post_some K s next who t hstep
          exact ⟨hpc, rfl, rfl, _, rfl⟩
        | term who =>
          obtain ⟨_, rfl⟩ := step_term_some K s next who hstep
          exact ⟨hpc, rfl, rfl, _, rfl⟩
        | reg r =>
          simp only [step, Option.some.injEq] at hstep
          subst hstep
          obtain ⟨h1, h2, _, h4, h5⟩ := reg_apply_fields s r
          exact ⟨h4.trans hpc, h1.trans hsync, h5, [], by simp [h2]⟩
        | wait rc => simp [step, hpc] at hstep
        | event rc pevent phndl => simp [step, hpc] at hstep
        | drain => simp [step, hpc] at hstep
      obtain ⟨k1, k2, k3, more, k4⟩ := key
      obtain ⟨r1, r2, r3, more2, r4⟩ := ih next k1 k2 h
      exact ⟨r1, r2, r3.trans k3, more ++ more2, by rw [r4, k4, List.append_assoc]⟩

/-- Every step of `step` is one of the cases of `Step`. -/
theorem step_sound (K : Macros) (s s' : nn_worker) (a : Action)
    (h : step K s a = some s') : Step K s a s' := by
  cases a with
  | post who t =>
    obtain ⟨h1, rfl⟩ := step_post_some K s s' who t h
    exact Step.post s who t h1
  | term who =>
    obtain ⟨h1, rfl⟩ := step_term_some K s s' who h
    exact Step.term s who h1
  | reg r =>
    simp only [step, Option.some.injEq] at h
    subst h
    exact Step.reg s r
  | wait rc =>
    by_cases hpc : s.thread = .wait
    · by_cases hrc : rc = 0
      · subst hrc
        have e : s' = { s with
              thread := .event
              log := s.log ++ [Event.wait (-1) s.sync] } := by
          simpa [step, hpc, nn_worker_routine_wait, eq_comm] using h
        rw [e]
        exact Step.wait_ok s hpc
      · have e : s' = { s with
              thread := .aborted
              log := s.log ++ [Event.wait (-1) s.sync] } := by
          simpa [step, hpc, nn_worker_routine_wait, hrc, eq_comm] using h
        rw [e]
        exact Step.wait_failed s rc hpc hrc
    · simp [step, hpc] at h
  | event rc pevent phndl =>
    by_cases hpc : s.thread = .event
    · by_cases hrc : rc = -K.EAGAIN
      · subst hrc
        have e : s' = { s with thread := .wait } := by
          simpa [step, hpc, nn_worker_routine_event, eq_comm] using h
        rw [e]
        exact Step.no_event s pevent phndl hpc
      · cases phndl with
        | efd_hndl =>
          cases hsync : s.sync with
          | some x =>
            simp [step, hpc, nn_worker_routine_event, hrc, hsync, nn_mutex_lock] at h
          | none =>
            by_cases hin : pevent = K.NN_POLLER_IN
            · subst hin
              have e : s' = { s with
              sync := some .worker
              efd := false
              thread := .drain
              log := s.log ++ [Event.lock] } := by
                simpa [step, hpc, nn_worker_routine_event, hrc, hsync,
                  nn_mutex_lock, nn_efd_unsignal, eq_comm] using h
              rw [e]
              exact Step.wake s rc hpc hrc hsync
            · have e : s' = { s with
              sync := some .worker
              thread := .aborted
              log := s.log ++ [Event.lock] } := by
                simpa [step, hpc, nn_worker_routine_event, hrc, hsync,
                  nn_mutex_lock, hin, eq_comm] using h
              rw [e]
              exact Step.wake_failed s rc pevent hpc hrc hsync hin
        | phndl fd =>
          have e : s' = { s with
              log := s.log ++ [Event.callback fd.owner (.fd fd) pevent s.sync] } := by
            simpa [step, hpc, nn_worker_routine_event, hrc, eq_comm] using h
          rw [e]
          exact Step.io s rc pevent fd hpc hrc
    · simp [step, hpc] at h
  | drain =>
    by_cases hpc : s.thread = .drain
    · cases hq : s.events with
      | nil =>
        have e : s' = { s with
              sync := none
              thread := .event
              log := s.log ++ [Event.unlock] } := by
          obtain ⟨sync, events, efd, poller, timerset, thread, log⟩ := s
          simp only at hq hpc
          subst hq
          simpa [step, hpc, nn_worker_routine_drain, nn_queue_pop,
            nn_mutex_unlock, eq_comm] using h
        rw [e]
        exact Step.drain_empty s hpc hq
      | cons item rest =>
        cases item with
        | stop =>
          have e : s' = { s with
              events := rest
              sync := none
              thread := .returned
              log := s.log ++ [Event.unlock] } := by
            simpa [step, hpc, nn_worker_routine_drain, nn_queue_pop, hq,
              nn_mutex_unlock, eq_comm] using h
          rw [e]
          exact Step.drain_stop s rest hpc hq
        | task t =>
          have e : s' = { s with
              events := rest
              log := s.log ++ [Event.callback t.owner (.task t) K.NN_ASYNC_OK s.sync] } := by
            simpa [step, hpc, nn_worker_routine_drain, nn_queue_pop, hq,
              eq_comm] using h
          rw [e]
          exact Step.drain_task s t rest hpc hq
    · simp [step, hpc] at h

/-! ## What every reachable state satisfies -/

theorem inv_init (K : Macros) (efd_fd : Int) : Inv K (nn_worker_init efd_fd) := by
  constructor <;>
    simp [nn_worker_init, nn_mutex_init, nn_queue_init, nn_efd_init, locks,
      unlocks, taskCallbacks, dispatched, timeouts]

theorem locks_append (l1 l2 : List Event) :
    locks (l1 ++ l2) = locks l1 + locks l2 := by
  simp [locks]

theorem unlocks_append (l1 l2 : List Event) :
    unlocks (l1 ++ l2) = unlocks l1 + unlocks l2 := by
  simp [unlocks]

theorem taskCallbacks_append (l1 l2 : List Event) :
    taskCallbacks (l1 ++ l2) = taskCallbacks l1 ++ taskCallbacks l2 := by
  simp [taskCallbacks]

theorem dispatched_append (l1 l2 : List Event) :
    dispatched (l1 ++ l2) = dispatched l1 ++ dispatched l2 := by
  simp [dispatched]

theorem timeouts_append (l1 l2 : List Event) :
    timeouts (l1 ++ l2) = timeouts l1 ++ timeouts l2 := by
  simp [timeouts]

theorem pushed_append (xs ys : List Action) :
    pushed (xs ++ ys) = pushed xs ++ pushed ys := by
  simp [pushed]

theorem posted_append (xs ys : List Action) :
    posted (xs ++ ys) = posted xs ++ posted ys := by
  simp [posted]

theorem inv_step_sync (K : Macros) (s s' : nn_worker) (a : Action)
    (h1 : s.thread = .drain → s.sync = some .worker)
    (h2 : s.thread = .wait ∨ s.thread = .event ∨ s.thread = .returned →
      s.sync = none)
    (h : Step K s a s') :
    (s'.thread = .drain → s'.sync = some .worker) ∧
      (s'.thread = .wait ∨ s'.thread = .event ∨ s'.thread = .returned →
        s'.sync = none) := by
  cases h with
  | post who t hs => simp_all
  | term who hs => simp_all
  | reg r =>
    obtain ⟨e1, e2, e3, e4, e5⟩ := reg_apply_fields s r
    simp only [e1, e4]
    exact ⟨h1, h2⟩
  | wait_ok hpc => simp_all
  | wait_failed rc hpc hrc => simp_all
  | no_event pevent phndl hpc => simp_all
  | wake rc hpc hrc hs => simp_all
  | wake_failed rc pevent hpc hrc hs hin => simp_all
  | io rc pevent fd hpc hrc => simp_all
  | drain_empty hpc hq => simp_all
  | drain_stop rest hpc hq => simp_all
  | drain_task t rest hpc hq => simp_all

theorem inv_step_disciplined (K : Macros) (s s' : nn_worker) (a : Action)
    (h1 : s.thread = .drain → s.sync = some .worker)
    (h2 : s.thread = .wait ∨ s.thread = .event ∨ s.thread = .returned →
      s.sync = none)
    (h3 : ∀ e ∈ s.log, e.disciplined = true)
    (h : Step K s a s') : ∀ e ∈ s'.log, e.disciplined = true := by
  have key : ∀ x : Event, x.disciplined = true →
      ∀ e ∈ s.log ++ [x], e.disciplined = true := by
    intro x hx e he
    rcases List.mem_append.1 he with h | h
    · exact h3 e h
    · rw [List.mem_singleton.1 h]
      exact hx
  cases h with
  | post who t hs => exact h3
  | term who hs => exact h3
  | reg r =>
    obtain ⟨e1, e2, e3, e4, e5⟩ := reg_apply_fields s r
    simp only [e5]
    exact h3
  | wait_ok hpc =>
    exact key _ (by simp [Event.disciplined, h2 (Or.inl hpc)])
  | wait_failed rc hpc hrc =>
    exact key _ (by simp [Event.disciplined, h2 (Or.inl hpc)])
  | no_event pevent phndl hpc => exact h3
  | wake rc hpc hrc hs => exact key _ rfl
  | wake_failed rc pevent hpc hrc hs hin => exact key _ rfl
  | io rc pevent fd hpc hrc =>
    exact key _ (by simp [Event.disciplined, h2 (Or.inr (Or.inl hpc))])
  | drain_empty hpc hq => exact key _ rfl
  | drain_stop rest hpc hq => exact key _ rfl
  | drain_task t rest hpc hq =>
    exact key _ (by simp [Event.disciplined, h1 hpc])

theorem inv_step_balance (K : Macros) (s s' : nn_worker) (a : Action)
    (h1 : s.thread = .drain → s.sync = some .worker)
    (h4 : locks s.log = unlocks s.log + (if s.sync = some .worker then 1 else 0))
    (h : Step K s a s') :
    locks s'.log = unlocks s'.log + (if s'.sync = some .worker then 1 else 0) := by
  cases h with
  | post who t hs => simpa [hs] using h4
  | term who hs => simpa [hs] using h4
  | reg r =>
    obtain ⟨e1, e2, e3, e4, e5⟩ := reg_apply_fields s r
    simp only [e1, e5]
    exact h4
  | wait_ok hpc =>
    simpa [locks_append, unlocks_append, locks, unlocks] using h4
  | wait_failed rc hpc hrc =>
    simpa [locks_append, unlocks_append, locks, unlocks] using h4
  | no_event pevent phndl hpc => exact h4
  | wake rc hpc hrc hs =>
    simp only [hs] at h4
    simp [locks_append, unlocks_append, h4]
    simp [locks, unlocks]
  | wake_failed rc pevent hpc hrc hs hin =>
    simp only [hs] at h4
    simp [locks_append, unlocks_append, h4]
    simp [locks, unlocks]
  | io rc pevent fd hpc hrc =>
    simpa [locks_append, unlocks_append, locks, unlocks] using h4
  | drain_empty hpc hq =>
    simp only [h1 hpc] at h4
    simp [locks_append, unlocks_append, h4]
    simp [locks, unlocks]
  | drain_stop rest hpc hq =>
    simp only [h1 hpc] at h4
    simp [locks_append, unlocks_append, h4]
    simp [locks, unlocks]
  | drain_task t rest hpc hq =>
    simpa [locks_append, unlocks_append, locks, unlocks] using h4

theorem inv_step_wellformed (K : Macros) (s s' : nn_worker) (a : Action)
    (h1 : s.thread = .drain → s.sync = some .worker)
    (h5 : taskCallbacks s.log = (dispatched s.log).map (taskCallback K))
    (h : Step K s a s') :
    taskCallbacks s'.log = (dispatched s'.log).map (taskCallback K) := by
  cases h with
  | post who t hs => exact h5
  | term who hs => exact h5
  | reg r =>
    obtain ⟨e1, e2, e3, e4, e5⟩ := reg_apply_fields s r
    simp only [e5]
    exact h5
  | wait_ok hpc =>
    simp [taskCallbacks_append, dispatched_append, h5]
    simp [taskCallbacks, dispatched, Event.isTaskCallback, Event.dispatches]
  | wait_failed rc hpc hrc =>
    simp [taskCallbacks_append, dispatched_append, h5]
    simp [taskCallbacks, dispatched, Event.isTaskCallback, Event.dispatches]
  | no_event pevent phndl hpc => exact h5
  | wake rc hpc hrc hs =>
    simp [taskCallbacks_append, dispatched_append, h5]
    simp [taskCallbacks, dispatched, Event.isTaskCallback, Event.dispatches]
  | wake_failed rc pevent hpc hrc hs hin =>
    simp [taskCallbacks_append, dispatched_append, h5]
    simp [taskCallbacks, dispatched, Event.isTaskCallback, Event.dispatches]
  | io rc pevent fd hpc hrc =>
    simp [taskCallbacks_append, dispatched_append, h5]
    simp [taskCallbacks, dispatched, Event.isTaskCallback, Event.dispatches]
  | drain_empty hpc hq =>
    simp [taskCallbacks_append, dispatched_append, h5]
    simp [taskCallbacks, dispatched, Event.isTaskCallback, Event.dispatches]
  | drain_stop rest hpc hq =>
    simp [taskCallbacks_append, dispatched_append, h5]
    simp [taskCallbacks, dispatched, Event.isTaskCallback, Event.dispatches]
  | drain_task t rest hpc hq =>
    simp [taskCallbacks_append, dispatched_append, h5]
    simp [taskCallbacks, dispatched, Event.isTaskCallback, Event.dispatches,
      taskCallback, h1 hpc]

theorem inv_step_wake (K : Macros) (s s' : nn_worker) (a : Action)
    (h1 : s.thread = .drain → s.sync = some .worker)
    (h6 : s.sync = none → s.thread ≠ .returned → s.events ≠ [] → s.efd = true)
    (h : Step K s a s') :
    s'.sync = none → s'.thread ≠ .returned → s'.events ≠ [] → s'.efd = true := by
  cases h with
  | post who t hs => simp
  | term who hs => simp
  | reg r =>
    obtain ⟨e1, e2, e3, e4, e5⟩ := reg_apply_fields s r
    simp only [e1, e2, e3, e4]
    exact h6
  | wait_ok hpc => simpa [hpc] using h6
  | wait_failed rc hpc hrc => simpa [hpc] using h6
  | no_event pevent phndl hpc => simpa [hpc] using h6
  | wake rc hpc hrc hs => simp
  | wake_failed rc pevent hpc hrc hs hin => simp
  | io rc pevent fd hpc hrc => simpa [hpc] using h6
  | drain_empty hpc hq => simp [hq]
  | drain_stop rest hpc hq => simp
  | drain_task t rest hpc hq => simp [h1 hpc]

theorem inv_step_blocking (K : Macros) (s s' : nn_worker) (a : Action)
    (h7 : ∀ t ∈ timeouts s.log, t = -1)
    (h : Step K s a s') : ∀ t ∈ timeouts s'.log, t = -1 := by
  have key : ∀ x : Event, (∀ t ∈ timeouts [x], t = -1) →
      ∀ t ∈ timeouts (s.log ++ [x]), t = -1 := by
    intro x hx t ht
    rw [timeouts_append] at ht
    rcases List.mem_append.1 ht with h | h
    · exact h7 t h
    · exact hx t h
  cases h with
  | post who t hs => exact h7
  | term who hs => exact h7
  | reg r =>
    obtain ⟨e1, e2, e3, e4, e5⟩ := reg_apply_fields s r
    simp only [e5]
    exact h7
  | wait_ok hpc => exact key _ (by simp [timeouts, Event.waits])
  | wait_failed rc hpc hrc => exact key _ (by simp [timeouts, Event.waits])
  | no_event pevent phndl hpc => exact h7
  | wake rc hpc hrc hs => exact key _ (by simp [timeouts, Event.waits])
  | wake_failed rc pevent hpc hrc hs hin =>
    exact key _ (by simp [timeouts, Event.waits])
  | io rc pevent fd hpc hrc => exact key _ (by simp [timeouts, Event.waits])
  | drain_empty hpc hq => exact key _ (by simp [timeouts, Event.waits])
  | drain_stop rest hpc hq => exact key _ (by simp [timeouts, Event.waits])
  | drain_task t rest hpc hq => exact key _ (by simp [timeouts, Event.waits])

theorem inv_step (K : Macros) (s s' : nn_worker) (a : Action) (hi : Inv K s)
    (h : Step K s a s') : Inv K s' := by
  obtain ⟨h1, h2, h3, h4, h5, h6, h7⟩ := hi
  obtain ⟨k1, k2⟩ := inv_step_sync K s s' a h1 h2 h
  exact ⟨k1, k2, inv_step_disciplined K s s' a h1 h2 h3 h,
    inv_step_balance K s s' a h1 h4 h, inv_step_wellformed K s s' a h1 h5 h,
    inv_step_wake K s s' a h1 h6 h, inv_step_blocking K s s' a h7 h⟩

/-- Every state reached from a state that satisfies `Inv` satisfies it. -/
theorem inv_run (K : Macros) (sched : List Action) (s s' : nn_worker)
    (hi : Inv K s) (h : run K s sched = some s') : Inv K s' := by
  induction sched generalizing s with
  | nil =>
    simp only [run, Option.some.injEq] at h
    exact h ▸ hi
  | cons a rest ih =>
    simp only [run] at h
    cases hstep : step K s a with
    | none => simp [hstep] at h
    | some next =>
      rw [hstep] at h
      exact ih next (inv_step K s next a hi (step_sound K s next a hstep)) h

/-- A step moves the item it pushes, if any, into the account, and moves
nothing out of it. -/
theorem account_step (K : Macros) (s s' : nn_worker) (a : Action)
    (h : Step K s a s') : account s' = account s ++ pushed [a] := by
  cases h with
  | post who t hs => simp [account, pushed, Action.pushes]
  | term who hs => simp [account, pushed, Action.pushes]
  | reg r =>
    obtain ⟨e1, e2, e3, e4, e5⟩ := reg_apply_fields s r
    simp [account, pushed, Action.pushes, e2, e4, e5]
  | wait_ok hpc =>
    simp [account, pushed, Action.pushes, dispatched_append, hpc]
    simp [dispatched, Event.dispatches]
  | wait_failed rc hpc hrc =>
    simp [account, pushed, Action.pushes, dispatched_append, hpc]
    simp [dispatched, Event.dispatches]
  | no_event pevent phndl hpc => simp [account, pushed, Action.pushes, hpc]
  | wake rc hpc hrc hs =>
    simp [account, pushed, Action.pushes, dispatched_append, hpc]
    simp [dispatched, Event.dispatches]
  | wake_failed rc pevent hpc hrc hs hin =>
    simp [account, pushed, Action.pushes, dispatched_append, hpc]
    simp [dispatched, Event.dispatches]
  | io rc pevent fd hpc hrc =>
    simp [account, pushed, Action.pushes, dispatched_append, hpc]
    simp [dispatched, Event.dispatches]
  | drain_empty hpc hq =>
    simp [account, pushed, Action.pushes, dispatched_append, hpc, hq]
    simp [dispatched, Event.dispatches]
  | drain_stop rest hpc hq =>
    simp [account, pushed, Action.pushes, dispatched_append, hpc, hq]
    simp [dispatched, Event.dispatches]
  | drain_task t rest hpc hq =>
    simp [account, pushed, Action.pushes, dispatched_append, hpc, hq]
    simp [dispatched, Event.dispatches]

/-- The account of the state after a run is the account of the state before
it, followed by the items the schedule pushed. -/
theorem account_run (K : Macros) (sched : List Action) (s s' : nn_worker)
    (h : run K s sched = some s') : account s' = account s ++ pushed sched := by
  induction sched generalizing s with
  | nil =>
    simp only [run, Option.some.injEq] at h
    subst h
    simp [pushed]
  | cons a rest ih =>
    simp only [run] at h
    cases hstep : step K s a with
    | none => simp [hstep] at h
    | some next =>
      rw [hstep] at h
      rw [ih next h, account_step K s next a (step_sound K s next a hstep),
        List.append_assoc, ← pushed_append]
      rfl

theorem account_init (efd_fd : Int) : account (nn_worker_init efd_fd) = [] := by
  simp [account, nn_worker_init, nn_queue_init, dispatched]

theorem taskCallbacks_map (K : Macros) (ts : List nn_worker_task) :
    taskCallbacks (ts.map (taskCallback K)) = ts.map (taskCallback K) := by
  induction ts with
  | nil => rfl
  | cons t rest ih =>
    simp only [taskCallbacks, List.map_cons] at ih ⊢
    simp [List.filter_cons, taskCallback, Event.isTaskCallback]

theorem dispatched_map (K : Macros) (ts : List nn_worker_task) :
    dispatched (ts.map (taskCallback K)) = ts := by
  induction ts with
  | nil => rfl
  | cons t rest ih =>
    simp only [dispatched, List.map_cons] at ih ⊢
    simp [List.filterMap_cons, taskCallback, Event.dispatches, ih]

theorem taskCallback_injective (K : Macros) :
    Function.Injective (taskCallback K) := by
  intro a b h
  simp only [taskCallback, Event.callback.injEq, Source.task.injEq] at h
  exact h.2.1

/-- A queue that holds the stop item consists of tasks, the stop item and a
rest. -/
theorem split_at_stop (q : List nn_queue_item) (h : nn_queue_item.stop ∈ q) :
    ∃ (ts : List nn_worker_task) (rest : List nn_queue_item),
      q = ts.map nn_queue_item.task ++ .stop :: rest := by
  induction q with
  | nil => simp at h
  | cons item tail ih =>
    cases item with
    | stop => exact ⟨[], tail, rfl⟩
    | task t =>
      have h2 : nn_queue_item.stop ∈ tail := by simpa using h
      obtain ⟨ts, rest, e⟩ := ih h2
      exact ⟨t :: ts, rest, by simp [e]⟩

theorem stop_mem_pushed (sched : List Action) (who : Thread)
    (h : Action.term who ∈ sched) : nn_queue_item.stop ∈ pushed sched := by
  simp only [pushed, List.mem_filterMap]
  exact ⟨_, h, rfl⟩

theorem postedBeforeTerm_of_pushed (sched : List Action)
    (ts : List nn_worker_task) (rest : List nn_queue_item)
    (h : pushed sched = ts.map nn_queue_item.task ++ .stop :: rest) :
    postedBeforeTerm sched = ts := by
  induction sched generalizing ts with
  | nil => simp [pushed] at h
  | cons a tail ih =>
    cases a with
    | post who t =>
      cases ts with
      | nil => simp [pushed, Action.pushes] at h
      | cons u us =>
        simp only [pushed, List.filterMap_cons, Action.pushes, List.map_cons,
          List.cons_append, List.cons.injEq, nn_queue_item.task.injEq] at h
        simp only [postedBeforeTerm, List.cons.injEq]
        exact ⟨h.1, ih us h.2⟩
    | term who =>
      cases ts with
      | nil => rfl
      | cons u us => simp [pushed, Action.pushes] at h
    | reg r =>
      simp only [postedBeforeTerm]
      exact ih ts (by simpa [pushed, Action.pushes] using h)
    | wait rc =>
      simp only [postedBeforeTerm]
      exact ih ts (by simpa [pushed, Action.pushes] using h)
    | event rc pevent phndl =>
      simp only [postedBeforeTerm]
      exact ih ts (by simpa [pushed, Action.pushes] using h)
    | drain =>
      simp only [postedBeforeTerm]
      exact ih ts (by simpa [pushed, Action.pushes] using h)

theorem posted_of_pushed (sched : List Action) :
    posted sched = (pushed sched).filterMap fun i =>
      match i with
      | .task t => some t
      | .stop => none := by
  induction sched with
  | nil => rfl
  | cons a tail ih =>
    cases a <;>
      simp_all [posted, pushed, Action.posts, Action.pushes, List.filterMap_cons]

/-- The passes of the draining loop over the tasks at the head of the queue:
one callback per task, in the order of the queue. -/
theorem run_drain_tasks (K : Macros) (ts : List nn_worker_task)
    (tail : List nn_queue_item) (s : nn_worker) (hpc : s.thread = .drain)
    (hq : s.events = ts.map nn_queue_item.task ++ tail) :
    run K s (List.replicate ts.length .drain) =
      some { s with
        events := tail
        log := s.log ++ ts.map fun t =>
          Event.callback t.owner (.task t) K.NN_ASYNC_OK s.sync } := by
  induction ts generalizing s with
  | nil =>
    obtain ⟨sync, events, efd, poller, timerset, thread, log⟩ := s
    simp only [List.map_nil, List.nil_append] at hq
    subst hq
    simp [run]
  | cons t rest ih =>
    have hstep : step K s .drain =
        some { s with
          events := rest.map nn_queue_item.task ++ tail
          log := s.log ++
            [Event.callback t.owner (.task t) K.NN_ASYNC_OK s.sync] } := by
      simp [step, hpc, nn_worker_routine_drain, hq, nn_queue_pop]
    have hrest := ih
      { s with
        events := rest.map nn_queue_item.task ++ tail
        log := s.log ++
          [Event.callback t.owner (.task t) K.NN_ASYNC_OK s.sync] }
      hpc rfl
    simp only [List.length_cons, List.replicate_succ, run, hstep]
    rw [hrest]
    simp

/-- From the delivery of the wake-up event to the return: with the stop item
queued behind the tasks `ts`, the routine takes the mutex, clears the efd,
makes one callback per task of `ts` and returns. -/
theorem run_wake_stop (K : Macros) (ts : List nn_worker_task)
    (rest : List nn_queue_item) (s : nn_worker) (rc : Int)
    (hpc : s.thread = .event) (hsync : s.sync = none) (hrc : rc ≠ -K.EAGAIN)
    (hq : s.events = ts.map nn_queue_item.task ++ .stop :: rest) :
    run K s (.event rc K.NN_POLLER_IN .efd_hndl ::
        List.replicate (ts.length + 1) .drain) =
      some { s with
        events := rest
        efd := false
        sync := none
        thread := .returned
        log := s.log ++ [Event.lock] ++ ts.map (taskCallback K) ++ [Event.unlock] } := by
  have h1 : step K s (.event rc K.NN_POLLER_IN .efd_hndl) =
      some { s with
        sync := some .worker
        efd := false
        thread := .drain
        log := s.log ++ [Event.lock] } := by
    simp [step, hpc, nn_worker_routine_event, hrc, hsync, nn_mutex_lock,
      nn_efd_unsignal]
  have h2 := run_drain_tasks K ts (.stop :: rest)
    { s with
      sync := some .worker
      efd := false
      thread := .drain
      log := s.log ++ [Event.lock] } rfl hq
  rw [List.replicate_succ']
  simp only [run, h1]
  rw [run_append, h2]
  simp [run, step, nn_worker_routine_drain, nn_queue_pop, nn_mutex_unlock,
    taskCallback]

/-- From the delivery of the wake-up event to the end of the draining loop:
with only the tasks `ts` queued, the routine takes the mutex, clears the efd,
makes one callback per task of `ts`, releases the mutex and goes on with the
events of the poller. -/
theorem run_wake_empty (K : Macros) (ts : List nn_worker_task)
    (s : nn_worker) (rc : Int)
    (hpc : s.thread = .event) (hsync : s.sync = none) (hrc : rc ≠ -K.EAGAIN)
    (hq : s.events = ts.map nn_queue_item.task) :
    run K s (.event rc K.NN_POLLER_IN .efd_hndl ::
        List.replicate (ts.length + 1) .drain) =
      some { s with
        events := []
        efd := false
        sync := none
        thread := .event
        log := s.log ++ [Event.lock] ++ ts.map (taskCallback K) ++ [Event.unlock] } := by
  have h1 : step K s (.event rc K.NN_POLLER_IN .efd_hndl) =
      some { s with
        sync := some .worker
        efd := false
        thread := .drain
        log := s.log ++ [Event.lock] } := by
    simp [step, hpc, nn_worker_routine_event, hrc, hsync, nn_mutex_lock,
      nn_efd_unsignal]
  have h2 := run_drain_tasks K ts []
    { s with
      sync := some .worker
      efd := false
      thread := .drain
      log := s.log ++ [Event.lock] } rfl (by simpa using hq)
  rw [List.replicate_succ']
  simp only [run, h1]
  rw [run_append, h2]
  simp [run, step, nn_worker_routine_drain, nn_queue_pop, nn_mutex_unlock,
    taskCallback]

/-- In a reachable state the tasks dispatched so far, followed by what is
queued (and the stop item in between, once the routine has returned), are the
items pushed so far. -/
theorem account_reachable (K : Macros) (efd_fd : Int) (sched : List Action)
    (s : nn_worker) (hrun : run K (nn_worker_init efd_fd) sched = some s) :
    (dispatched s.log).map nn_queue_item.task ++
        (if s.thread = .returned then [.stop] else []) ++ s.events =
      pushed sched := by
  have h := account_run K sched _ s hrun
  rw [account_init, List.nil_append] at h
  exact h

theorem dispatched_posted (K : Macros) (efd_fd : Int) (sched : List Action)
    (s : nn_worker) (hrun : run K (nn_worker_init efd_fd) sched = some s) :
    dispatched s.log <+: posted sched := by
  have h := account_reachable K efd_fd sched s hrun
  rw [posted_of_pushed, ← h, List.append_assoc, List.filterMap_append]
  have e : (List.map nn_queue_item.task (dispatched s.log)).filterMap
      (fun i =>
        match i with
        | .task t => some t
        | .stop => none) = dispatched s.log := by
    induction dispatched s.log with
    | nil => rfl
    | cons t rest ih => simp [List.filterMap_cons, ih]
  rw [e]
  exact ⟨_, rfl⟩

theorem step_in_drain (K : Macros) (s next : nn_worker) (a : Action)
    (x : Thread) (hpc : s.thread = .drain) (hsync : s.sync = some x)
    (h : step K s a = some next) : a = .drain ∨ ∃ r, a = .reg r := by
  cases a with
  | post who t => simp [step, nn_worker_post, nn_mutex_lock, hsync] at h
  | term who => simp [step, nn_worker_term, nn_mutex_lock, hsync] at h
  | reg r => exact Or.inr ⟨r, rfl⟩
  | wait rc => simp [step, hpc] at h
  | event rc pevent phndl => simp [step, hpc] at h
  | drain => exact Or.inl rfl

/-! ## Effect of a post (C4) -/

/-- C4: in a state whose mutex is free, `nn_worker_post` of a task that is not
queued succeeds and changes exactly this: the task is appended at the tail of
the queue and the efd is signalled.  The mutex is free again, and the log (no
callback is made), the registrations of the poller, the timer set and the
control point of the worker thread are as before. -/
theorem nn_worker_post_effect (self : nn_worker) (who : Thread)
    (task : nn_worker_task) (hfree : self.sync = none)
    (_hnew : nn_queue_item.task task ∉ self.events) :
    nn_worker_post self who task =
      some { sync := none
             events := self.events ++ [.task task]
             efd := true
             poller := self.poller
             timerset := self.timerset
             thread := self.thread
             log := self.log } := by
  obtain ⟨sync, events, efd, poller, timerset, thread, log⟩ := self
  simp only at hfree
  subst hfree
  rfl

theorem nn_worker_post_effect_witness :
    nn_worker_post
        { sync := none, events := [.task ⟨1, 10⟩], efd := false,
          poller := [⟨.efd_hndl, 5, true, false⟩], timerset := [],
          thread := .event, log := [Event.wait (-1) none] }
        .user ⟨2, 20⟩ =
      some { sync := none, events := [.task ⟨1, 10⟩, .task ⟨2, 20⟩], efd := true,
             poller := [⟨.efd_hndl, 5, true, false⟩], timerset := [],
             thread := .event, log := [Event.wait (-1) none] } :=
  nn_worker_post_effect _ .user ⟨2, 20⟩ rfl (by decide)

/-! ## The stop item (C3) -/

/-- C3: when the draining loop pops the stop item, the step ends the routine:
the mutex is released, the only entry added to the log is the release (no
callback for the stop item), and the items behind the stop item stay in the
queue.  Whatever is scheduled afterwards, the routine stays returned, the log
stays as it is (so no callback is ever made for an item behind the stop item)
and the items that were behind the stop item are still in the queue, at its
head. -/
theorem stop_halts_without_draining (K : Macros) (self : nn_worker)
    (behind : List nn_queue_item) (hpc : self.thread = .drain)
    (hq : self.events = .stop :: behind) :
    step K self .drain =
        some { self with
          events := behind
          sync := none
          thread := .returned
          log := self.log ++ [Event.unlock] } ∧
      ∀ sched after, run K self (.drain :: sched) = some after →
        after.thread = .returned ∧ after.sync = none ∧
          after.log = self.log ++ [Event.unlock] ∧
          callbacks after.log = callbacks self.log ∧
          ∃ more, after.events = behind ++ more := by
  have hstep : step K self .drain =
      some { self with
        events := behind
        sync := none
        thread := .returned
        log := self.log ++ [Event.unlock] } := by
    simp [step, hpc, nn_worker_routine_drain, hq, nn_queue_pop, nn_mutex_unlock]
  refine ⟨hstep, ?_⟩
  intro sched after hrun
  simp only [run, hstep] at hrun
  obtain ⟨h1, h2, h3, more, h4⟩ := run_returned K sched _ after rfl rfl hrun
  refine ⟨h1, h2, h3, ?_, more, h4⟩
  rw [h3]
  simp [callbacks, Event.isCallback]

theorem stop_halts_without_draining_witness :
    step ⟨11, 1, 0⟩
        { sync := some .worker, events := [.stop, .task ⟨3, 30⟩], efd := false,
          poller := [], timerset := [], thread := .drain,
          log := [Event.lock] } .drain =
        some { sync := none, events := [.task ⟨3, 30⟩], efd := false,
               poller := [], timerset := [], thread := .returned,
               log := [Event.lock, Event.unlock] } ∧
      ∀ sched after,
        run ⟨11, 1, 0⟩
            { sync := some .worker, events := [.stop, .task ⟨3, 30⟩], efd := false,
              poller := [], timerset := [], thread := .drain,
              log := [Event.lock] } (.drain :: sched) = some after →
        after.thread = .returned ∧ after.sync = none ∧
          after.log = [Event.lock] ++ [Event.unlock] ∧
          callbacks after.log = callbacks [Event.lock] ∧
          ∃ more, after.events = [.task ⟨3, 30⟩] ++ more :=
  stop_halts_without_draining ⟨11, 1, 0⟩
    { sync := some .worker, events := [.stop, .task ⟨3, 30⟩], efd := false,
      poller := [], timerset := [], thread := .drain, log := [Event.lock] }
    [.task ⟨3, 30⟩] rfl rfl

/-! ## Events of registrations (C6) -/

theorem run_io_events (K : Macros) (evs : List IoEvent) (self : nn_worker)
    (hpc : self.thread = .event) (hrc : ∀ e ∈ evs, e.rc ≠ -K.EAGAIN) :
    run K self (evs.map IoEvent.action) =
      some { self with log := self.log ++ evs.map (IoEvent.callback self.sync) } := by
  induction evs generalizing self with
  | nil => simp [run]
  | cons e rest ih =>
    have h1 : e.rc ≠ -K.EAGAIN := hrc e (List.mem_cons_self _ _)
    have h2 : ∀ x ∈ rest, x.rc ≠ -K.EAGAIN :=
      fun x hx => hrc x (List.mem_cons_of_mem _ hx)
    have hstep : step K self e.action =
        some { self with log := self.log ++ [IoEvent.callback self.sync e] } := by
      simp [step, IoEvent.action, hpc, nn_worker_routine_event, h1, IoEvent.callback]
    have hrest := ih { self with log := self.log ++ [IoEvent.callback self.sync e] }
      hpc h2
    simp only [List.map_cons, run, hstep]
    rw [hrest]
    simp

/-- C6: while the routine is going through the events of the poller, let the
poller yield any sequence of events whose handles belong to registrations
(results other than -EAGAIN).  The routine makes exactly one callback per
event, in the order of the events: on the owner stored in the registration
(the one `nn_worker_fd_init` put there), with the registration as the source
and the event kind as reported.  Nothing else changes: the queue, the efd, the
mutex, the poller and the control point are as before. -/
theorem io_event_routing (K : Macros) (self : nn_worker) (evs : List IoEvent)
    (hpc : self.thread = .event) (hrc : ∀ e ∈ evs, e.rc ≠ -K.EAGAIN) :
    run K self (evs.map fun e => .event e.rc e.pevent (.phndl e.fd)) =
        some { self with
          log := self.log ++
            evs.map fun e => .callback e.fd.owner (.fd e.fd) e.pevent self.sync } ∧
      ∀ (fd : nn_worker_fd) (owner : Nat) (rc pevent : Int), rc ≠ -K.EAGAIN →
        step K self (.event rc pevent (.phndl (nn_worker_fd_init fd owner))) =
          some { self with
            log := self.log ++
              [.callback owner (.fd (nn_worker_fd_init fd owner)) pevent self.sync] } := by
  refine ⟨run_io_events K evs self hpc hrc, ?_⟩
  intro fd owner rc pevent h
  simp [step, hpc, nn_worker_routine_event, h, nn_worker_fd_init]

theorem io_event_routing_witness :
    run ⟨11, 1, 0⟩
        { sync := none, events := [.task ⟨1, 10⟩], efd := true,
          poller := [], timerset := [], thread := .event, log := [] }
        [.event 0 1 (.phndl ⟨7, 70⟩), .event 0 2 (.phndl ⟨8, 80⟩),
         .event 0 2 (.phndl ⟨7, 70⟩)] =
      some { sync := none, events := [.task ⟨1, 10⟩], efd := true,
             poller := [], timerset := [], thread := .event,
             log := [.callback 70 (.fd ⟨7, 70⟩) 1 none,
                     .callback 80 (.fd ⟨8, 80⟩) 2 none,
                     .callback 70 (.fd ⟨7, 70⟩) 2 none] } :=
  (io_event_routing ⟨11, 1, 0⟩
    { sync := none, events := [.task ⟨1, 10⟩], efd := true,
      poller := [], timerset := [], thread := .event, log := [] }
    [⟨0, 1, ⟨7, 70⟩⟩, ⟨0, 2, ⟨8, 80⟩⟩, ⟨0, 2, ⟨7, 70⟩⟩] rfl (by decide)).1

/-! ## A wake-up with nothing to do (C9) -/

/-- C9: from the top of the loop, when `nn_poller_wait` returns 0 and the
first `nn_poller_event` returns -EAGAIN, the routine is back at the top of the
loop and the only trace of the cycle is the call of `nn_poller_wait` in the
log: no callback, no use of the mutex, the queue and the efd as before.  When
`nn_poller_wait` returns something else than 0, the routine is aborted by the
assertion, with nothing but the call in the log, and takes no further step:
there is no second call of `nn_poller_wait`. -/
theorem spurious_wakeup_noop (K : Macros) (self : nn_worker) (pevent : Int)
    (phndl : nn_poller_hndl) (hpc : self.thread = .wait) :
    run K self [.wait 0, .event (-K.EAGAIN) pevent phndl] =
        some { self with log := self.log ++ [Event.wait (-1) self.sync] } ∧
      ∀ rc, rc ≠ 0 →
        step K self (.wait rc) =
            some { self with
              thread := .aborted
              log := self.log ++ [Event.wait (-1) self.sync] } ∧
          ∀ after rc2 pevent2 phndl2,
            step K self (.wait rc) = some after →
              step K after (.wait rc2) = none ∧
              step K after (.event rc2 pevent2 phndl2) = none ∧
              step K after .drain = none := by
  obtain ⟨sync, events, efd, poller, timerset, thread, log⟩ := self
  simp only at hpc
  subst hpc
  refine ⟨by simp [run, step, nn_worker_routine_wait, nn_worker_routine_event], ?_⟩
  intro rc hrc
  have hstep : step K ⟨sync, events, efd, poller, timerset, .wait, log⟩ (.wait rc) =
      some ⟨sync, events, efd, poller, timerset, .aborted,
        log ++ [Event.wait (-1) sync]⟩ := by
    simp [step, nn_worker_routine_wait, hrc]
  refine ⟨hstep, ?_⟩
  intro after rc2 pevent2 phndl2 h
  rw [hstep] at h
  simp only [Option.some.injEq] at h
  subst h
  simp [step]

theorem spurious_wakeup_noop_witness :
    run ⟨11, 1, 0⟩
        { sync := none, events := [.task ⟨1, 10⟩], efd := true,
          poller := [], timerset := [], thread := .wait, log := [] }
        [.wait 0, .event (-11) 1 .efd_hndl] =
      some { sync := none, events := [.task ⟨1, 10⟩], efd := true,
             poller := [], timerset := [], thread := .wait,
             log := [Event.wait (-1) none] } :=
  (spurious_wakeup_noop ⟨11, 1, 0⟩
    { sync := none, events := [.task ⟨1, 10⟩], efd := true,
      poller := [], timerset := [], thread := .wait, log := [] }
    1 .efd_hndl rfl).1

/-! ## Order of delivery (C1) -/

/-- C1: let distinct tasks be posted, by any threads and at any moments the
mutex lets them, in a schedule that runs the worker from its initialisation.
In every state reached, the callbacks made so far whose source is a task are
the callbacks of a head part of the posted tasks, in the order of posting;
each is made on the owner of the task, with the task as the source.  So when
a task has been dispatched, each task posted before it was dispatched before
it: it sits at its own position in the sequence of task callbacks. -/
theorem fifo_delivery (K : Macros) (efd_fd : Int) (sched : List Action)
    (s : nn_worker) (hrun : run K (nn_worker_init efd_fd) sched = some s)
    (hnodup : (posted sched).Nodup) :
    taskCallbacks s.log <+: (posted sched).map (taskCallback K) ∧
      ∀ (i j : Nat) (ti tj : nn_worker_task), i < j →
        (posted sched)[i]? = some ti →
        (posted sched)[j]? = some tj → taskCallback K tj ∈ s.log →
        (taskCallbacks s.log)[i]? = some (taskCallback K ti) := by
  have hinv := inv_run K sched _ s (inv_init K efd_fd) hrun
  have hwf := hinv.wellformed
  have hpre := dispatched_posted K efd_fd sched s hrun
  refine ⟨?_, ?_⟩
  · rw [hwf]
    obtain ⟨more, hmore⟩ := hpre
    exact ⟨more.map (taskCallback K), by rw [← hmore, List.map_append]⟩
  · intro i j ti tj hij hi hj hmem
    have hmem2 : taskCallback K tj ∈ taskCallbacks s.log := by
      simp only [taskCallbacks, List.mem_filter]
      exact ⟨hmem, rfl⟩
    rw [hwf] at hmem2
    obtain ⟨u, hu, hcb⟩ := List.mem_map.1 hmem2
    have hutj : u = tj := taskCallback_injective K hcb
    subst hutj
    have htake : dispatched s.log =
        (posted sched).take (dispatched s.log).length :=
      List.prefix_iff_eq_take.1 hpre
    rw [htake] at hu
    obtain ⟨m, hm⟩ := List.mem_iff_getElem?.1 hu
    rw [List.getElem?_take] at hm
    by_cases hlt : m < (dispatched s.log).length
    · rw [if_pos hlt] at hm
      have hmlen : m < (posted sched).length := by
        by_contra hcon
        rw [List.getElem?_eq_none (Nat.le_of_not_lt hcon)] at hm
        exact Option.noConfusion hm
      have hmj : m = j := List.getElem?_inj hmlen hnodup (hm.trans hj.symm)
      subst hmj
      have hik : i < (dispatched s.log).length := Nat.lt_trans hij hlt
      rw [hwf, List.getElem?_map, htake, List.getElem?_take, if_pos hik, hi]
      rfl
    · rw [if_neg hlt] at hm
      exact Option.noConfusion hm

theorem fifo_delivery_witness :
    taskCallbacks
        [Event.wait (-1) none, Event.lock,
         taskCallback ⟨11, 1, 0⟩ ⟨1, 10⟩, taskCallback ⟨11, 1, 0⟩ ⟨2, 20⟩,
         Event.unlock] <+:
        (posted [.post .user ⟨1, 10⟩, .wait 0, .post .user ⟨2, 20⟩,
          .event 0 1 .efd_hndl, .drain, .drain, .drain,
          .post .worker ⟨3, 30⟩]).map (taskCallback ⟨11, 1, 0⟩) :=
  (fifo_delivery ⟨11, 1, 0⟩ 5
    [.post .user ⟨1, 10⟩, .wait 0, .post .user ⟨2, 20⟩,
      .event 0 1 .efd_hndl, .drain, .drain, .drain, .post .worker ⟨3, 30⟩]
    { sync := none, events := [.task ⟨3, 30⟩], efd := true,
      poller := [⟨.efd_hndl, 5, true, false⟩], timerset := [],
      thread := .event,
      log := [Event.wait (-1) none, Event.lock,
        taskCallback ⟨11, 1, 0⟩ ⟨1, 10⟩, taskCallback ⟨11, 1, 0⟩ ⟨2, 20⟩,
        Event.unlock] }
    (by decide) (by decide)).1

/-! ## Delivery before the stop item (C2) -/

/-- C2: let the tasks posted before the first `nn_worker_term` be distinct, in
a schedule that runs the worker from its initialisation.  If the routine has
returned, the task callbacks in its log are exactly the callbacks of those
tasks, in the order of posting, and the log holds the callback of each of
them exactly once.  And the routine does return: once `nn_worker_term` has
pushed the stop item, if the routine is going through the events of the
poller, or is at the call of `nn_poller_wait` and that call returns 0, then
the delivery of the wake-up event (NN_POLLER_IN on the handle of the efd) is
followed by passes of the draining loop that end in the return, with the log
of task callbacks as said. -/
theorem delivery_before_stop (K : Macros) (efd_fd : Int) (sched : List Action)
    (s : nn_worker) (hrun : run K (nn_worker_init efd_fd) sched = some s)
    (hnodup : (postedBeforeTerm sched).Nodup) :
    (s.thread = .returned →
        taskCallbacks s.log = (postedBeforeTerm sched).map (taskCallback K) ∧
        ∀ t ∈ postedBeforeTerm sched, s.log.count (taskCallback K t) = 1) ∧
      (∀ who rc, Action.term who ∈ sched → rc ≠ -K.EAGAIN →
        (s.thread = .event →
          ∃ n s', run K s (.event rc K.NN_POLLER_IN .efd_hndl ::
              List.replicate n .drain) = some s' ∧
            s'.thread = .returned ∧
            taskCallbacks s'.log =
              (postedBeforeTerm sched).map (taskCallback K)) ∧
        (s.thread = .wait →
          ∃ n s', run K s (.wait 0 :: .event rc K.NN_POLLER_IN .efd_hndl ::
              List.replicate n .drain) = some s' ∧
            s'.thread = .returned ∧
            taskCallbacks s'.log =
              (postedBeforeTerm sched).map (taskCallback K))) := by
  have hinv := inv_run K sched _ s (inv_init K efd_fd) hrun
  have hwf := hinv.wellformed
  have hacc := account_reachable K efd_fd sched s hrun
  refine ⟨?_, ?_⟩
  · intro hpc
    rw [if_pos hpc, List.append_assoc] at hacc
    have hpb : postedBeforeTerm sched = dispatched s.log :=
      postedBeforeTerm_of_pushed sched _ _ hacc.symm
    have hlog : taskCallbacks s.log =
        (postedBeforeTerm sched).map (taskCallback K) := by rw [hwf, hpb]
    refine ⟨hlog, ?_⟩
    intro t ht
    have hc : s.log.count (taskCallback K t) =
        (taskCallbacks s.log).count (taskCallback K t) := by
      simp only [taskCallbacks]
      exact (List.count_filter rfl).symm
    rw [hc, hlog]
    exact List.count_eq_one_of_mem
      (List.Nodup.map (taskCallback_injective K) hnodup)
      (List.mem_map_of_mem _ ht)
  · intro who rc hterm hrc
    have key : ∀ s1 : nn_worker, s1.thread = .event → s1.sync = none →
        s1.events = s.events →
        taskCallbacks s1.log = taskCallbacks s.log → s.thread ≠ .returned →
        ∃ n s', run K s1 (.event rc K.NN_POLLER_IN .efd_hndl ::
            List.replicate n .drain) = some s' ∧
          s'.thread = .returned ∧
          taskCallbacks s'.log =
            (postedBeforeTerm sched).map (taskCallback K) := by
      intro s1 hpc1 hsync1 hev1 hlog1 hlive
      rw [if_neg hlive, List.append_nil] at hacc
      have hstop : nn_queue_item.stop ∈ s.events := by
        have h1 : nn_queue_item.stop ∈ pushed sched :=
          stop_mem_pushed sched who hterm
        rw [← hacc] at h1
        rcases List.mem_append.1 h1 with h | h
        · simp at h
        · exact h
      obtain ⟨ts, rest, hq⟩ := split_at_stop s.events hstop
      have hpb : postedBeforeTerm sched = dispatched s.log ++ ts := by
        apply postedBeforeTerm_of_pushed sched _ rest
        rw [← hacc, hq, List.map_append, List.append_assoc]
      refine ⟨ts.length + 1, _,
        run_wake_stop K ts rest s1 rc hpc1 hsync1 hrc (hev1.trans hq), rfl, ?_⟩
      simp only [taskCallbacks_append, hlog1, hwf, hpb, List.map_append,
        taskCallbacks_map]
      simp [taskCallbacks, Event.isTaskCallback]
    refine ⟨?_, ?_⟩
    · intro hpc
      exact key s hpc (hinv.idle_free (Or.inr (Or.inl hpc))) rfl rfl
        (by rw [hpc]; decide)
    · intro hpc
      have hsync : s.sync = none := hinv.idle_free (Or.inl hpc)
      have hstep : step K s (.wait 0) =
          some { s with
            thread := .event
            log := s.log ++ [Event.wait (-1) s.sync] } := by
        simp [step, hpc, nn_worker_routine_wait]
      obtain ⟨n, s', h1, h2, h3⟩ := key
        { s with
          thread := .event
          log := s.log ++ [Event.wait (-1) s.sync] }
        rfl hsync rfl
        (by simp [taskCallbacks_append]; simp [taskCallbacks, Event.isTaskCallback])
        (by rw [hpc]; decide)
      refine ⟨n, s', ?_, h2, h3⟩
      simp only [run, hstep]
      simpa only [run] using h1

theorem delivery_before_stop_witness :
    (taskCallbacks
            [Event.wait (-1) none, Event.lock,
             taskCallback ⟨11, 1, 0⟩ ⟨1, 10⟩, taskCallback ⟨11, 1, 0⟩ ⟨2, 20⟩,
             taskCallback ⟨11, 1, 0⟩ ⟨3, 30⟩, Event.unlock] =
          (postedBeforeTerm
            [.post .user ⟨1, 10⟩, .post .user ⟨2, 20⟩, .post .user ⟨3, 30⟩,
             .term .user, .post .user ⟨4, 40⟩, .wait 0, .event 0 1 .efd_hndl,
             .drain, .drain, .drain, .drain]).map (taskCallback ⟨11, 1, 0⟩) ∧
        ∀ t ∈ postedBeforeTerm
            [.post .user ⟨1, 10⟩, .post .user ⟨2, 20⟩, .post .user ⟨3, 30⟩,
             .term .user, .post .user ⟨4, 40⟩, .wait 0, .event 0 1 .efd_hndl,
             .drain, .drain, .drain, .drain],
          List.count (taskCallback ⟨11, 1, 0⟩ t)
            [Event.wait (-1) none, Event.lock,
             taskCallback ⟨11, 1, 0⟩ ⟨1, 10⟩, taskCallback ⟨11, 1, 0⟩ ⟨2, 20⟩,
             taskCallback ⟨11, 1, 0⟩ ⟨3, 30⟩, Event.unlock] = 1) :=
  (delivery_before_stop ⟨11, 1, 0⟩ 5
    [.post .user ⟨1, 10⟩, .post .user ⟨2, 20⟩, .post .user ⟨3, 30⟩,
     .term .user, .post .user ⟨4, 40⟩, .wait 0, .event 0 1 .efd_hndl,
     .drain, .drain, .drain, .drain]
    { sync := none, events := [.task ⟨4, 40⟩], efd := false,
      poller := [⟨.efd_hndl, 5, true, false⟩], timerset := [],
      thread := .returned,
      log := [Event.wait (-1) none, Event.lock,
        taskCallback ⟨11, 1, 0⟩ ⟨1, 10⟩, taskCallback ⟨11, 1, 0⟩ ⟨2, 20⟩,
        taskCallback ⟨11, 1, 0⟩ ⟨3, 30⟩, Event.unlock] }
    (by decide) (by decide)).1 rfl

/-! ## The timeout of the wait (C5) -/

/-- C5, as stated, fails: with a timer pending (registered at time 0 with a
timeout of 50, so that the time remaining until the earliest deadline is 50
and not "no deadline"), the routine passes -1, "block indefinitely", to
`nn_poller_wait`. -/
theorem wait_deadline_counterexample :
    nn_timerset_earliest
        (nn_worker_poller_add_timer (nn_worker_init 5) 0 50 ⟨1, 9⟩).timerset =
        some 50 ∧
      spec_wait_timeout
        (nn_worker_poller_add_timer (nn_worker_init 5) 0 50 ⟨1, 9⟩).timerset 0 =
        50 ∧
      (step ⟨11, 1, 0⟩
          (nn_worker_poller_add_timer (nn_worker_init 5) 0 50 ⟨1, 9⟩)
          (.wait 0)).map (fun s => timeouts s.log) = some [-1] := by
  decide

/-- C5, amended: in every iteration of the loop the timeout passed to
`nn_poller_wait` is -1, "block indefinitely", whatever timers are pending.
In every state reached from the initialisation, by schedules that may
register and cancel timers, all the timeouts passed so far are -1, and at the
top of the loop the next call passes -1 again. -/
theorem wait_blocks_indefinitely (K : Macros) (efd_fd : Int)
    (sched : List Action) (s : nn_worker)
    (hrun : run K (nn_worker_init efd_fd) sched = some s) :
    (∀ t ∈ timeouts s.log, t = -1) ∧
      (s.thread = .wait → ∀ rc, ∃ s', step K s (.wait rc) = some s' ∧
        timeouts s'.log = timeouts s.log ++ [-1]) := by
  have hinv := inv_run K sched _ s (inv_init K efd_fd) hrun
  refine ⟨hinv.blocking, ?_⟩
  intro hpc rc
  refine ⟨nn_worker_routine_wait s rc, by simp [step, hpc], ?_⟩
  by_cases hrc : rc = 0 <;>
    simp [nn_worker_routine_wait, hrc, timeouts_append, timeouts, Event.waits]

theorem wait_blocks_indefinitely_witness :
    (∀ t ∈ timeouts [Event.wait (-1) none], t = -1) ∧
      (Pc.wait = Pc.wait → ∀ rc, ∃ s',
        step ⟨11, 1, 0⟩
            { sync := none, events := [], efd := false,
              poller := [⟨.efd_hndl, 5, true, false⟩],
              timerset := [(50, ⟨1, 9⟩)], thread := .wait,
              log := [Event.wait (-1) none] }
            (.wait rc) = some s' ∧
          timeouts s'.log = timeouts [Event.wait (-1) none] ++ [-1]) :=
  wait_blocks_indefinitely ⟨11, 1, 0⟩ 5
    [.wait 0, .reg (.add_timer 0 50 ⟨1, 9⟩), .event (-11) 0 .efd_hndl]
    { sync := none, events := [], efd := false,
      poller := [⟨.efd_hndl, 5, true, false⟩],
      timerset := [(50, ⟨1, 9⟩)], thread := .wait,
      log := [Event.wait (-1) none] }
    (by decide)

/-! ## The mutex (C7) -/

/-- C7: in every state reached from the initialisation, every callback for a
task in the log was made with the worker thread holding the mutex, every
callback for a registration and every call of `nn_poller_wait` with the mutex
free.  While the routine is at the call of `nn_poller_wait`, is going through
the events of the poller (which is where the draining loop leaves it when the
queue is empty) or has returned (on the stop item), the mutex is free and the
routine has released it as many times as it has taken it; inside the draining
loop the worker thread holds it and has taken it once more than released. -/
theorem locking_discipline (K : Macros) (efd_fd : Int) (sched : List Action)
    (s : nn_worker) (hrun : run K (nn_worker_init efd_fd) sched = some s) :
    (∀ owner t type sync, Event.callback owner (.task t) type sync ∈ s.log →
        sync = some .worker) ∧
      (∀ owner fd type sync, Event.callback owner (.fd fd) type sync ∈ s.log →
        sync = none) ∧
      (∀ timeout sync, Event.wait timeout sync ∈ s.log → sync = none) ∧
      (s.thread = .wait ∨ s.thread = .event ∨ s.thread = .returned →
        s.sync = none ∧ locks s.log = unlocks s.log) ∧
      (s.thread = .drain →
        s.sync = some .worker ∧ locks s.log = unlocks s.log + 1) := by
  have hinv := inv_run K sched _ s (inv_init K efd_fd) hrun
  refine ⟨?_, ?_, ?_, ?_, ?_⟩
  · intro owner t type sync h
    simpa [Event.disciplined] using hinv.disciplined _ h
  · intro owner fd type sync h
    simpa [Event.disciplined] using hinv.disciplined _ h
  · intro timeout sync h
    simpa [Event.disciplined] using hinv.disciplined _ h
  · intro hpc
    have hs := hinv.idle_free hpc
    refine ⟨hs, ?_⟩
    have hb := hinv.balance
    rw [hs] at hb
    simpa using hb
  · intro hpc
    have hs := hinv.drain_held hpc
    refine ⟨hs, ?_⟩
    have hb := hinv.balance
    rw [hs] at hb
    simpa using hb

theorem locking_discipline_witness :
    ((some Thread.worker : nn_mutex) = some .worker ∧
        locks [Event.wait (-1) none, Event.callback 70 (.fd ⟨7, 70⟩) 2 none,
          Event.lock, Event.callback 10 (.task ⟨1, 10⟩) 0 (some .worker)] =
        unlocks [Event.wait (-1) none, Event.callback 70 (.fd ⟨7, 70⟩) 2 none,
          Event.lock, Event.callback 10 (.task ⟨1, 10⟩) 0 (some .worker)] + 1) :=
  (locking_discipline ⟨11, 1, 0⟩ 5
    [.post .user ⟨1, 10⟩, .wait 0, .event 0 2 (.phndl ⟨7, 70⟩),
     .event 0 1 .efd_hndl, .drain]
    { sync := some .worker, events := [], efd := false,
      poller := [⟨.efd_hndl, 5, true, false⟩], timerset := [],
      thread := .drain,
      log := [Event.wait (-1) none, Event.callback 70 (.fd ⟨7, 70⟩) 2 none,
        Event.lock, Event.callback 10 (.task ⟨1, 10⟩) 0 (some .worker)] }
    (by decide)).2.2.2.2 rfl

/-! ## The draining loop empties the queue (C8) -/

/-- C8: let the routine be going through the events of the poller, with the
mutex free and only tasks `ts` in the queue (no stop item), and let the poller
yield the wake-up event.  Then the routine takes the mutex, makes the
callbacks of all of `ts`, in the order of the queue, and releases the mutex;
when it is back at asking the poller for the next event the queue is empty,
the efd is cleared and the mutex is free.  Until then the worker thread is in
the draining loop and holds the mutex, and the only steps that can be taken
are passes of that loop and changes of registrations: no other event of the
poller is handled (so no callback for a registration is made) and nothing is
posted in between. -/
theorem tasks_drained_before_next_event (K : Macros) (self : nn_worker)
    (ts : List nn_worker_task) (rc : Int) (hpc : self.thread = .event)
    (hsync : self.sync = none) (hrc : rc ≠ -K.EAGAIN)
    (hq : self.events = ts.map nn_queue_item.task) :
    run K self (.event rc K.NN_POLLER_IN .efd_hndl ::
          List.replicate (ts.length + 1) .drain) =
        some { self with
          events := []
          efd := false
          sync := none
          thread := .event
          log := self.log ++ [Event.lock] ++ ts.map (taskCallback K) ++
            [Event.unlock] } ∧
      ∀ k mid, k ≤ ts.length →
        run K self (.event rc K.NN_POLLER_IN .efd_hndl ::
          List.replicate k .drain) = some mid →
        mid.thread = .drain ∧ mid.sync = some .worker ∧
          mid.log = self.log ++ [Event.lock] ++ (ts.take k).map (taskCallback K) ∧
          ∀ a next, step K mid a = some next → a = .drain ∨ ∃ r, a = .reg r := by
  refine ⟨run_wake_empty K ts self rc hpc hsync hrc hq, ?_⟩
  intro k mid hk hmid
  have h1 : step K self (.event rc K.NN_POLLER_IN .efd_hndl) =
      some { self with
        sync := some .worker
        efd := false
        thread := .drain
        log := self.log ++ [Event.lock] } := by
    simp [step, hpc, nn_worker_routine_event, hrc, hsync, nn_mutex_lock,
      nn_efd_unsignal]
  have hlen : (ts.take k).length = k := by
    rw [List.length_take]
    exact Nat.min_eq_left hk
  have h2 := run_drain_tasks K (ts.take k) ((ts.drop k).map nn_queue_item.task)
    { self with
      sync := some .worker
      efd := false
      thread := .drain
      log := self.log ++ [Event.lock] } rfl
    (by rw [← List.map_append, List.take_append_drop]; exact hq)
  rw [hlen] at h2
  simp only [run, h1] at hmid
  rw [h2] at hmid
  simp only [Option.some.injEq] at hmid
  subst hmid
  have hcb : (fun t : nn_worker_task =>
      Event.callback t.owner (.task t) K.NN_ASYNC_OK (some Thread.worker)) =
      taskCallback K := rfl
  refine ⟨rfl, rfl, by simp [hcb], ?_⟩
  intro a next hstep
  exact step_in_drain K _ next a .worker rfl rfl hstep

theorem tasks_drained_before_next_event_witness :
    run ⟨11, 1, 0⟩
        { sync := none, events := [.task ⟨1, 10⟩, .task ⟨2, 20⟩], efd := true,
          poller := [], timerset := [], thread := .event, log := [] }
        [.event 0 1 .efd_hndl, .drain, .drain, .drain] =
      some { sync := none, events := [], efd := false,
             poller := [], timerset := [], thread := .event,
             log := [Event.lock, taskCallback ⟨11, 1, 0⟩ ⟨1, 10⟩,
               taskCallback ⟨11, 1, 0⟩ ⟨2, 20⟩, Event.unlock] } :=
  (tasks_drained_before_next_event ⟨11, 1, 0⟩
    { sync := none, events := [.task ⟨1, 10⟩, .task ⟨2, 20⟩], efd := true,
      poller := [], timerset := [], thread := .event, log := [] }
    [⟨1, 10⟩, ⟨2, 20⟩] 0 rfl rfl (by decide) rfl).1

/-! ## No queued item without a pending wake-up (C10) -/

/-- C10: with `nn_worker_post`, the push of `nn_worker_term` and each pass of
the routine under the mutex as steps, in every state reached from the
initialisation in which the mutex is free and the routine has not returned, a
non-empty queue implies that the efd is signalled. -/
theorem no_task_without_wakeup (K : Macros) (efd_fd : Int)
    (sched : List Action) (s : nn_worker)
    (hrun : run K (nn_worker_init efd_fd) sched = some s)
    (hfree : s.sync = none) (hlive : s.thread ≠ .returned)
    (hq : s.events ≠ []) : s.efd = true :=
  (inv_run K sched _ s (inv_init K efd_fd) hrun).wake hfree hlive hq

theorem no_task_without_wakeup_witness :
    ({ sync := none, events := [.task ⟨2, 20⟩], efd := true,
       poller := [⟨.efd_hndl, 5, true, false⟩], timerset := [],
       thread := .event,
       log := [Event.wait (-1) none, Event.lock,
         taskCallback ⟨11, 1, 0⟩ ⟨1, 10⟩, Event.unlock] } : nn_worker).efd =
      true :=
  no_task_without_wakeup ⟨11, 1, 0⟩ 5
    [.post .user ⟨1, 10⟩, .wait 0, .event 0 1 .efd_hndl, .drain, .drain,
     .post .user ⟨2, 20⟩]
    { sync := none, events := [.task ⟨2, 20⟩], efd := true,
      poller := [⟨.efd_hndl, 5, true, false⟩], timerset := [],
      thread := .event,
      log := [Event.wait (-1) none, Event.lock,
        taskCallback ⟨11, 1, 0⟩ ⟨1, 10⟩, Event.unlock] }
    (by decide) (by decide) (by decide) (by decide)

end Worker
